import Mathlib

/-!
Verification of the imresh shrink-wrap phase-retrieval core.

The development shallowly embeds the reconstruction pipeline of the
repository: the CPU controller from
src/imresh/algorithms/shrinkWrap.cpp (function shrinkWrap), the CUDA
controller from src/imresh/algorithms/cuda/cudaShrinkWrap.cpp (function
cudaShrinkWrap), and the 1D/2D Gaussian-kernel builders from
src/imresh/libs/calcGaussianKernel.tpp.

Machine floating point is modelled by exact rational arithmetic (ℚ).
Irrational primitives of the C code (sqrtf, exp, sqrt(2*pi)) and the
external numeric facilities that are not part of the translated sources
(the FFTW transforms and the separable Gaussian blur, whose
implementation files are not in the repository snapshot) enter the model
as explicit function parameters, so every definition stays computable
and the controller structure is translated literally from the source.
Division by zero follows the Lean convention x / 0 = 0; where a claim
hinges on such a division the divergence from IEEE (inf/NaN) is noted.
-/

namespace Imresh

/-- Concrete square-root function used to instantiate the abstract
square-root parameter of the model on witness inputs.  At every value a
concrete development below applies it to (1, 1/100 and 25) it equals the
exact real square root, which is also the value computed by sqrtf there. -/
def sqrtTable : ℚ → ℚ := fun q =>
  if q = 1 then 1 else if q = 1 / 100 then 1 / 10 else if q = 25 then 5 else 0

/-- Squared complex modulus of an interleaved (re, im) pair. -/
def normSq (z : ℚ × ℚ) : ℚ := z.1 * z.1 + z.2 * z.2

/-- Modelled from the spec: complex_norm (§4.4, "dst[i] = |src[i]|"); the
implementing file algorithms/vectorElementwise.cpp is not in the source
snapshot (only its callers are).  The square root is a parameter. -/
def complexNormElementwise (sqrt : ℚ → ℚ) (l : List (ℚ × ℚ)) : List ℚ :=
  l.map (fun z => sqrt (normSq z))

/-- Modelled from the spec: the exact maximum reduction max(x, N) (§4.3);
the implementing file algorithms/vectorReduce.cpp is not in the source
snapshot (only its callers are). -/
def vectorMax (l : List ℚ) : ℚ := l.foldl max (l.headD 0)

/-- Thresholding loop of shrinkWrap.cpp (lines 202-204 and 251-253):
data[i] = data[i] < threshold ? 1 : 0.  It agrees with the cutoff kernel
cudaCutOff(data, n, threshold, 1, 0) used by cudaShrinkWrap.cpp line 199. -/
def thresholdMask (threshold : ℚ) (l : List ℚ) : List ℚ :=
  l.map (fun v => if v < threshold then 1 else 0)

/-- HIO domain constraint for one pixel, from shrinkWrap.cpp lines 262-273:
if isMasked[i] == 1 or Re gPrime[i] < 0 then gPrevious[i] -= beta*gPrime[i]
(componentwise), else gPrevious[i] = gPrime[i]. -/
def applyHioDomainConstraintsElem (beta : ℚ) (gPrev gPrime : ℚ × ℚ) (m : ℚ) :
    ℚ × ℚ :=
  if m = 1 ∨ gPrime.1 < 0 then
    (gPrev.1 - beta * gPrime.1, gPrev.2 - beta * gPrime.2)
  else gPrime

/-- HIO domain-constraint pass over the whole buffers, pixelwise zip of
shrinkWrap.cpp lines 261-274. -/
def applyHioDomainConstraints (beta : ℚ) (gPrev gPrime : List (ℚ × ℚ))
    (mask : List ℚ) : List (ℚ × ℚ) :=
  ((gPrev.zip gPrime).zip mask).map
    (fun t => applyHioDomainConstraintsElem beta t.1.1 t.1.2 t.2)

/-- Modelled from the spec: modulus_projection for one pixel (§4.4): if
|src| > 0 then dst = src * (amplitude / |src|), if |src| = 0 then
dst = amplitude + 0i.  The implementing file
algorithms/vectorElementwise.cpp is not in the source snapshot (only the
CUDA kernel declaration and the call sites are). -/
def applyComplexModulusElem (sqrt : ℚ → ℚ) (z : ℚ × ℚ) (amp : ℚ) : ℚ × ℚ :=
  if 0 < sqrt (normSq z) then
    (z.1 * (amp / sqrt (normSq z)), z.2 * (amp / sqrt (normSq z)))
  else (amp, 0)

/-- Modulus projection over whole buffers (callers: shrinkWrap.cpp line 280,
cudaShrinkWrap.cpp line 241). -/
def applyComplexModulus (sqrt : ℚ → ℚ) (src : List (ℚ × ℚ)) (amp : List ℚ) :
    List (ℚ × ℚ) :=
  (src.zip amp).map (fun p => applyComplexModulusElem sqrt p.1 p.2)

/-- Modelled from the spec: masked complex-norm reduction (§4.3):
total_error = sum over pixels with M[i]=1 of sqrt(Re²+Im²) and n_masked the
count of such pixels; the invert flag swaps the roles of 0 and 1.  The
implementing file libs/hybridInputOutput.tpp is not in the source snapshot
(only its test tests/imresh/algorithms/testVectorReduce.cpp and the call in
shrinkWrap.cpp line 286 are). -/
def calculateHioError (sqrt : ℚ → ℚ) (data : List (ℚ × ℚ)) (mask : List ℚ)
    (invert : Bool) : ℚ × ℚ :=
  (data.zip mask).foldl
    (fun acc p =>
      if (if invert then p.2 = 0 else p.2 = 1) then
        (acc.1 + sqrt (normSq p.1), acc.2 + 1)
      else acc)
    (0, 0)

/-- Kernel half-width from calcGaussianKernel.tpp line 67:
nNeighbors = ceil(2.884402748387961466 * sigma - 0.5), with the double
literal taken as an exact rational. -/
def nNeighbors (sigma : ℚ) : ℤ :=
  ⌈(2884402748387961466 : ℚ) / 10 ^ 18 * sigma - 1 / 2⌉

/-- Total kernel length from calcGaussianKernel.tpp line 68:
nWeights = 2 * nNeighbors + 1. -/
def gaussNWeights (sigma : ℚ) : ℤ := 2 * nNeighbors sigma + 1

/-- Normalization constant of calcGaussianKernel.tpp line 81:
a = 1.0/(sqrt(2.0*M_PI)*rSigma); the irrational sqrt(2*pi) is a
parameter. -/
def gaussA (sqrt2pi sigma : ℚ) : ℚ := 1 / (sqrt2pi * sigma)

/-- Exponent constant of calcGaussianKernel.tpp line 82:
b = -1.0/(2.0*rSigma*rSigma). -/
def gaussB (sigma : ℚ) : ℚ := -(1 / (2 * sigma * sigma))

/-- Unnormalized weight loop of calcGaussianKernel.tpp lines 83-88:
rWeights[nNeighbors + i] = a*exp(i*i*b) for i in [-nNeighbors, nNeighbors],
indexed here by j = nNeighbors + i in [0, 2*nNeighbors]; exp is a
parameter. -/
def gaussRaw (sqrt2pi : ℚ) (exp : ℚ → ℚ) (sigma : ℚ) : List ℚ :=
  (List.range (2 * (nNeighbors sigma).toNat + 1)).map
    (fun j : ℕ =>
      gaussA sqrt2pi sigma *
        exp ((((j : ℚ) - ((nNeighbors sigma).toNat : ℚ)) *
              ((j : ℚ) - ((nNeighbors sigma).toNat : ℚ))) * gaussB sigma))

/-- Normalization loop of calcGaussianKernel.tpp lines 90-92: every weight
is divided by the sum of all weights. -/
def calcGaussianKernelWeights (sqrt2pi : ℚ) (exp : ℚ → ℚ) (sigma : ℚ) :
    List ℚ :=
  (gaussRaw sqrt2pi exp sigma).map
    (fun w => w / (gaussRaw sqrt2pi exp sigma).sum)

/-- Buffer-capacity behaviour of calcGaussianKernel.tpp lines 70-71 and 94:
the call returns the required length nWeights, and writes the kernel into
the caller buffer only when nWeights fits into rnWeights (otherwise it
returns without writing, here: none). -/
def calcGaussianKernelRun (sqrt2pi : ℚ) (exp : ℚ → ℚ) (sigma : ℚ)
    (rnWeights : ℕ) : ℤ × Option (List ℚ) :=
  let nW := gaussNWeights sigma
  if (rnWeights : ℤ) < nW then (nW, none)
  else (nW, some (calcGaussianKernelWeights sqrt2pi exp sigma))

/-- Buffer indices accessed by calcGaussianKernel2d
(calcGaussianKernel.tpp lines 132-155): the main double loop writes
rWeights[iy * rnWeightsX + ix] for ix < rnWeightsX, iy < rnWeightsY, and
the final normalization loop runs for i = 0 up to and including
rnWeightsX * rnWeightsY (source line 154: i <= rnWeightsX * rnWeightsY),
accessing rWeights[i]. -/
def calcGaussianKernel2dAccesses (nx ny : ℕ) : List ℕ :=
  ((List.range nx).flatMap
    (fun ix => (List.range ny).map (fun iy => iy * nx + ix)))
  ++ List.range (nx * ny + 1)

/-- Parameter block of shrinkWrap / cudaShrinkWrap (the unsigned counts and
the float tuning parameters, in source order). -/
structure SWParams where
  nCycles : ℕ
  targetError : ℚ
  hioBeta : ℚ
  cutOffAutoCorel : ℚ
  cutOff : ℚ
  sigma0 : ℚ
  sigmaChange : ℚ
  nHioCycles : ℕ
  deriving DecidableEq, Repr

/-- Parameter defaulting of the CPU shrinkWrap (shrinkWrap.cpp lines
138-144).  Note: the source block fills defaults for every parameter
except rnCycles, which has no defaulting line. -/
def shrinkWrapDefaults (p : SWParams) : SWParams :=
  { p with
    targetError := if p.targetError ≤ 0 then 1 / 100000 else p.targetError
    nHioCycles := if p.nHioCycles = 0 then 20 else p.nHioCycles
    hioBeta := if p.hioBeta ≤ 0 then 9 / 10 else p.hioBeta
    cutOffAutoCorel :=
      if p.cutOffAutoCorel ≤ 0 then 4 / 100 else p.cutOffAutoCorel
    cutOff := if p.cutOff ≤ 0 then 2 / 10 else p.cutOff
    sigma0 := if p.sigma0 ≤ 0 then 3 else p.sigma0
    sigmaChange := if p.sigmaChange ≤ 0 then 1 / 100 else p.sigmaChange }

/-- Parameter defaulting of cudaShrinkWrap (cudaShrinkWrap.cpp lines
90-97); unlike the CPU variant it also fills rnCycles == 0 with 20. -/
def cudaShrinkWrapDefaults (p : SWParams) : SWParams :=
  { shrinkWrapDefaults p with
    nCycles := if p.nCycles = 0 then 20 else p.nCycles }

/-- External numeric facilities of the controller: the square root used by
the elementwise kernels, the two FFTW transforms (toRealSpace backward,
toFreqSpace forward) and the separable Gaussian blur at a given sigma.
Their implementations live outside the translated sources (FFTW and
libs/gaussian.cpp), so they are parameters of the model; the controller
structure below is translated from shrinkWrap.cpp. -/
structure SWFns where
  sqrt : ℚ → ℚ
  fftB : List (ℚ × ℚ) → List (ℚ × ℚ)
  fftF : List (ℚ × ℚ) → List (ℚ × ℚ)
  blur : ℚ → List ℚ → List ℚ

/-- Working state of one reconstruction: curData (G resp. gPrime), the
previous object iterate gPrevious, the support mask isMasked and the
current blur sigma. -/
structure SWState where
  curData : List (ℚ × ℚ)
  gPrev : List (ℚ × ℚ)
  isMasked : List ℚ
  sigma : ℚ
  deriving DecidableEq, Repr

/-- Mask recomputation of shrinkWrap.cpp lines 246-253: the elementwise
complex norm of curData is written into the mask buffer, blurred with the
current sigma, and thresholded at cutOff times its maximum (below the
threshold becomes 1, otherwise 0). -/
def updateMask (F : SWFns) (sigma cutOff : ℚ) (cur : List (ℚ × ℚ)) :
    List ℚ :=
  let m := F.blur sigma (complexNormElementwise F.sqrt cur)
  thresholdMask (cutOff * vectorMax m) m

/-- Mask recomputation of cudaShrinkWrap.cpp lines 160-199: identical to
the CPU variant except that the threshold factor of the first outer cycle
is rIntensityCutOffAutoCorel (lines 197-198) instead of rIntensityCutOff. -/
def cudaUpdateMask (F : SWFns) (p : SWParams) (iCycle : ℕ) (sigma : ℚ)
    (cur : List (ℚ × ℚ)) : List ℚ :=
  let m := F.blur sigma (complexNormElementwise F.sqrt cur)
  let factor := if iCycle = 0 then p.cutOffAutoCorel else p.cutOff
  thresholdMask (factor * vectorMax m) m

/-- Sigma decay of shrinkWrap.cpp line 256 and cudaShrinkWrap.cpp line 202:
sigma = fmax(1.5, (1 - rSigmaChange) * sigma), applied once per outer
cycle. -/
def sigmaUpdate (sigmaChange sigma : ℚ) : ℚ :=
  max (3 / 2) ((1 - sigmaChange) * sigma)

/-- Body of one inner HIO iteration (shrinkWrap.cpp lines 258-283): apply
the domain constraints to get the new gPrevious, forward-transform it into
curData, replace the modulus of curData by the measured intensity, and
transform back to object space.  State is (curData, gPrevious). -/
def hioStep (F : SWFns) (beta : ℚ) (intensity : List ℚ) (mask : List ℚ)
    (st : List (ℚ × ℚ) × List (ℚ × ℚ)) : List (ℚ × ℚ) × List (ℚ × ℚ) :=
  let gp := applyHioDomainConstraints beta st.2 st.1 mask
  let cur := F.fftF gp
  let cur := applyComplexModulus F.sqrt cur intensity
  (F.fftB cur, gp)

/-- Inner HIO loop of shrinkWrap.cpp lines 258-283, run for n iterations. -/
def hioLoop (F : SWFns) (beta : ℚ) (intensity : List ℚ) (mask : List ℚ) :
    ℕ → List (ℚ × ℚ) × List (ℚ × ℚ) → List (ℚ × ℚ) × List (ℚ × ℚ)
  | 0, st => st
  | n + 1, st => hioLoop F beta intensity mask n (hioStep F beta intensity mask st)

/-- Body of one outer shrink-wrap cycle (shrinkWrap.cpp lines 240-283):
recompute the mask from the current curData, decay sigma once, then run
the inner HIO loop with the fresh mask. -/
def outerCycle (F : SWFns) (p : SWParams) (intensity : List ℚ)
    (st : SWState) : SWState :=
  let mask := updateMask F st.sigma p.cutOff st.curData
  let sigma := sigmaUpdate p.sigmaChange st.sigma
  let res := hioLoop F p.hioBeta intensity mask p.nHioCycles
    (st.curData, st.gPrev)
  ⟨res.1, res.2, mask, sigma⟩

/-- Outer shrink-wrap loop of shrinkWrap.cpp lines 240-294 with the
convergence break of lines 286-291: after each cycle the masked
complex-norm error of curData is compared against the target error. -/
def outerLoop (F : SWFns) (p : SWParams) (intensity : List ℚ) :
    ℕ → SWState → SWState
  | 0, st => st
  | k + 1, st =>
    let st1 := outerCycle F p intensity st
    if 0 < p.targetError ∧
        (calculateHioError F.sqrt st1.curData st1.isMasked false).1 <
          p.targetError then
      st1
    else outerLoop F p intensity k st1

/-- Initialization of shrinkWrap.cpp lines 171-237: load the intensity into
the real part of curData, inverse-transform to the autocorrelation, build
the first mask by norm, blur with sigma0 and threshold at
cutOffAutoCorel times the maximum, reload curData from the intensity and
seed gPrevious with it. -/
def shrinkWrapInit (F : SWFns) (sigma0 cutOffAutoCorel : ℚ)
    (intensity : List ℚ) : SWState :=
  let cur0 := intensity.map (fun v => ((v : ℚ), (0 : ℚ)))
  let auto := F.fftB cur0
  let m := F.blur sigma0 (complexNormElementwise F.sqrt auto)
  let mask := thresholdMask (cutOffAutoCorel * vectorMax m) m
  ⟨cur0, cur0, mask, sigma0⟩

/-- Full CPU shrinkWrap run after successful argument validation
(shrinkWrap.cpp lines 138-296): fill parameter defaults, initialize, run
the outer loop rnCycles times (with convergence break) and return status 0
together with the real part of curData. -/
def shrinkWrapRun (F : SWFns) (p : SWParams) (intensity : List ℚ) :
    ℕ × List ℚ :=
  let q := shrinkWrapDefaults p
  let st0 := shrinkWrapInit F q.sigma0 q.cutOffAutoCorel intensity
  let fin := outerLoop F q intensity q.nCycles st0
  (0, fin.curData.map Prod.fst)

/-- Result of the argument checks at the top of the CPU shrinkWrap:
invalid means an early return with status 1 before any buffer is
allocated or the input is read; proceed nElements means the checks
passed and the buffers of that pixel count get allocated. -/
inductive SWEntry where
  | invalid : SWEntry
  | proceed : ℕ → SWEntry
  deriving DecidableEq, Repr

/-- Argument validation of shrinkWrap.cpp lines 132-154: rSize.size() != 2
returns 1 (line 132), a null input pointer returns 1 (line 137); a zero
dimension is only guarded by assert(rSize[i] > 0) (line 152), which is a
no-op in release builds, so the call proceeds and allocates. -/
def shrinkWrapEntry (inputIsNull : Bool) (rSize : List ℕ) : SWEntry :=
  if rSize.length ≠ 2 then SWEntry.invalid
  else if inputIsNull then SWEntry.invalid
  else SWEntry.proceed (rSize.foldl (· * ·) 1)

/-- Status code produced by the validation outcome: 1 on the early-return
paths, 0 otherwise (shrinkWrap.cpp returns 0 at line 305). -/
def shrinkWrapStatus : SWEntry → ℕ
  | SWEntry.invalid => 1
  | SWEntry.proceed _ => 0

/-- Trivial instantiation of the external facilities for concrete
evaluations: table square root, identity transforms, identity blur. -/
def idFns : SWFns := ⟨sqrtTable, id, id, fun _ m => m⟩

/-- Parameter block holding the documented default values
(nCycles=20, targetError=1e-5, beta=0.9, autocorrelation cutoff 0.04,
cutoff 0.20, sigma0=3, sigmaChange=0.01, nHioCycles=20). -/
def pDef : SWParams := ⟨20, 1 / 100000, 9 / 10, 4 / 100, 2 / 10, 3, 1 / 100, 20⟩

/-- Parameter block passing the non-positive sentinel for every
parameter. -/
def pZero : SWParams := ⟨0, 0, 0, 0, 0, 0, 0, 0⟩

/-- Every entry written by the thresholding loop is 0 or 1. -/
lemma thresholdMask_mem (t : ℚ) (l : List ℚ) :
    ∀ v ∈ thresholdMask t l, v = 0 ∨ v = 1 := by
  intro v hv
  simp only [thresholdMask, List.mem_map] at hv
  obtain ⟨x, _, hx⟩ := hv
  by_cases h : x < t
  · right; rw [← hx]; simp [h]
  · left; rw [← hx]; simp [h]

/-- C9: throughout one reconstruction sigma starts at sigma0, each outer
cycle updates it exactly once to max(1.5, (1 - sigmaChange) * sigma); for
0 < sigmaChange < 1 the update never increases a sigma that is at least
1.5 and its result never falls below 1.5. -/
theorem sigma_monotone_floor (F : SWFns) (p : SWParams)
    (intensity : List ℚ) (st : SWState) (sigma0 cutOffAC : ℚ)
    (h1 : 0 < p.sigmaChange) (h2 : p.sigmaChange < 1) :
    (shrinkWrapInit F sigma0 cutOffAC intensity).sigma = sigma0 ∧
    (outerCycle F p intensity st).sigma =
      max (3 / 2) ((1 - p.sigmaChange) * st.sigma) ∧
    (3 / 2 ≤ st.sigma → (outerCycle F p intensity st).sigma ≤ st.sigma) ∧
    3 / 2 ≤ (outerCycle F p intensity st).sigma := by
  refine ⟨rfl, rfl, ?_, le_max_left _ _⟩
  intro hs
  show sigmaUpdate p.sigmaChange st.sigma ≤ st.sigma
  unfold sigmaUpdate
  have hspos : (0 : ℚ) < st.sigma := lt_of_lt_of_le (by norm_num) hs
  have : (1 - p.sigmaChange) * st.sigma ≤ st.sigma := by nlinarith
  exact max_le hs this

/-- Witness for sigma_monotone_floor at the default parameters. -/
theorem sigma_monotone_floor_witness :
    0 < pDef.sigmaChange ∧ pDef.sigmaChange < 1 ∧
    ((shrinkWrapInit idFns 3 (4 / 100) [3, 7]).sigma = 3 ∧
     (outerCycle idFns pDef [3, 7] ⟨[], [], [], 3⟩).sigma =
       max (3 / 2) ((1 - pDef.sigmaChange) * (3 : ℚ)) ∧
     (3 / 2 ≤ (3 : ℚ) →
       (outerCycle idFns pDef [3, 7] ⟨[], [], [], 3⟩).sigma ≤ 3) ∧
     3 / 2 ≤ (outerCycle idFns pDef [3, 7] ⟨[], [], [], 3⟩).sigma) :=
  ⟨by norm_num [pDef], by norm_num [pDef],
   sigma_monotone_floor idFns pDef [3, 7] ⟨[], [], [], 3⟩ 3 (4 / 100)
     (by norm_num [pDef]) (by norm_num [pDef])⟩

/-- C10: the final normalization pass of calcGaussianKernel2d accesses the
buffer index rnWeightsX * rnWeightsY, which is not strictly below
rnWeightsX * rnWeightsY — an access one past the end of the caller
buffer. -/
theorem calcGaussianKernel2d_normalization_oob (nx ny : ℕ) :
    nx * ny ∈ calcGaussianKernel2dAccesses nx ny ∧ ¬ nx * ny < nx * ny := by
  constructor
  · unfold calcGaussianKernel2dAccesses
    exact List.mem_append_right _ (List.mem_range.mpr (Nat.lt_succ_self _))
  · exact lt_irrefl _

/-- C5: evaluating the sigma = 0 path of calcGaussianKernel with a buffer
of capacity 1: the call returns length 1 but the single written weight is
the degenerate value produced by the division by zero in
a = 1/(sqrt(2*pi)*0) (0 in the exact model, NaN in IEEE), not the
single-element kernel 1.0 the specification mandates; the source has no
sigma == 0 special case. -/
theorem calcGaussianKernel_sigma_zero (sqrt2pi : ℚ) (exp : ℚ → ℚ) :
    calcGaussianKernelRun sqrt2pi exp 0 1 = (1, some [0]) ∧ (0 : ℚ) ≠ 1 := by
  have h0 : nNeighbors 0 = 0 := by
    unfold nNeighbors
    norm_num
  constructor
  · unfold calcGaussianKernelRun gaussNWeights calcGaussianKernelWeights
      gaussRaw gaussA gaussB
    rw [h0]
    norm_num [List.range_succ]
  · norm_num

/-- C2: evaluation of the defaulting code at the sentinel nCycles = 0: the
CPU shrinkWrap leaves nCycles at 0 (its defaulting block lines 138-144 has
no line for rnCycles), so the outer loop runs zero times and the call
returns the input intensity unchanged with status 0, while cudaShrinkWrap
defaults the same sentinel to 20 outer cycles. -/
theorem shrinkWrap_nCycles_zero (F : SWFns) (p : SWParams)
    (intensity : List ℚ) (h : p.nCycles = 0) :
    (shrinkWrapDefaults p).nCycles = 0 ∧
    (cudaShrinkWrapDefaults p).nCycles = 20 ∧
    (∀ st : SWState,
      outerLoop F (shrinkWrapDefaults p) intensity
        (shrinkWrapDefaults p).nCycles st = st) ∧
    shrinkWrapRun F p intensity = (0, intensity) := by
  have hd : (shrinkWrapDefaults p).nCycles = 0 := h
  refine ⟨hd, by simp [cudaShrinkWrapDefaults, h], ?_, ?_⟩
  · intro st
    rw [hd]
    rfl
  · simp only [shrinkWrapRun, hd, outerLoop, shrinkWrapInit, List.map_map]
    have : (Prod.fst ∘ fun v : ℚ => (v, (0 : ℚ))) = id := rfl
    rw [this, List.map_id]

/-- Witness for shrinkWrap_nCycles_zero at the all-sentinel parameter
block. -/
theorem shrinkWrap_nCycles_zero_witness :
    pZero.nCycles = 0 ∧
    ((shrinkWrapDefaults pZero).nCycles = 0 ∧
     (cudaShrinkWrapDefaults pZero).nCycles = 20 ∧
     (∀ st : SWState,
       outerLoop idFns (shrinkWrapDefaults pZero) [3, 7]
         (shrinkWrapDefaults pZero).nCycles st = st) ∧
     shrinkWrapRun idFns pZero [3, 7] = (0, [3, 7])) :=
  ⟨rfl, shrinkWrap_nCycles_zero idFns pZero [3, 7] rfl⟩

/-- C4 counterexample: called with a valid pointer but a zero first
dimension, the CPU shrinkWrap does not return the invalid-argument status
1: the zero dimension is only guarded by an assert (a no-op in release
builds), the checks pass, buffers are allocated and the final status is
0. -/
theorem zero_dimension_not_rejected :
    shrinkWrapEntry false [0, 2] = SWEntry.proceed 0 ∧
    shrinkWrapStatus (shrinkWrapEntry false [0, 2]) = 0 := by
  constructor <;> rfl

/-- C4 amended: the CPU shrinkWrap returns status 1, before any buffer is
allocated, exactly when the number of dimensions is not 2 or the input
pointer is null; in every other case (a zero dimension included) the
checks pass and the status is 0. -/
theorem shrinkWrap_validation (inputIsNull : Bool) (rSize : List ℕ) :
    (shrinkWrapEntry inputIsNull rSize = SWEntry.invalid ↔
      (rSize.length ≠ 2 ∨ inputIsNull = true)) ∧
    shrinkWrapStatus (shrinkWrapEntry inputIsNull rSize) =
      (if rSize.length ≠ 2 ∨ inputIsNull = true then 1 else 0) := by
  unfold shrinkWrapEntry shrinkWrapStatus
  by_cases h1 : rSize.length = 2 <;> by_cases h2 : inputIsNull <;>
    simp [h1, h2]

/-- Witness for shrinkWrap_validation on a null pointer with a valid
shape. -/
theorem shrinkWrap_validation_witness :
    (shrinkWrapEntry true [2, 2] = SWEntry.invalid ↔
      (([2, 2] : List ℕ).length ≠ 2 ∨ true = true)) ∧
    shrinkWrapStatus (shrinkWrapEntry true [2, 2]) =
      (if ([2, 2] : List ℕ).length ≠ 2 ∨ true = true then 1 else 0) :=
  shrinkWrap_validation true [2, 2]

/-- C1 counterexample: at the default parameters, the first outer cycle of
the CUDA variant thresholds the blurred norm with
rIntensityCutOffAutoCorel (cudaShrinkWrap.cpp lines 197-198), so its mask
differs from the mask the claim prescribes (threshold
rIntensityCutOff * max) on a concrete two-pixel image. -/
theorem cuda_mask_cycle0_uses_autocorrel_cutoff :
    cudaUpdateMask idFns pDef 0 3 [(1, 0), (1 / 10, 0)] ≠
      updateMask idFns 3 pDef.cutOff [(1, 0), (1 / 10, 0)] := by
  norm_num [cudaUpdateMask, updateMask, idFns, sqrtTable, pDef,
    complexNormElementwise, normSq, vectorMax, thresholdMask, max_def]

/-- C1 amended: every outer cycle of the CPU shrinkWrap recomputes the
mask before its inner HIO loop as the claim states (norm of curData,
blur with the current sigma, threshold at rIntensityCutOff times the
maximum, below becomes 1 else 0), and the HIO loop of that cycle consumes
the fresh mask; the CUDA variant does the same on every cycle after the
first, while its first cycle thresholds with rIntensityCutOffAutoCorel;
in all cases every entry of an updated mask is exactly 0 or 1. -/
theorem mask_update_per_cycle (F : SWFns) (p : SWParams)
    (intensity : List ℚ) (st : SWState) (sigma : ℚ) (cur : List (ℚ × ℚ))
    (k : ℕ) :
    (outerCycle F p intensity st).isMasked =
      updateMask F st.sigma p.cutOff st.curData ∧
    (outerCycle F p intensity st).curData =
      (hioLoop F p.hioBeta intensity
        (updateMask F st.sigma p.cutOff st.curData) p.nHioCycles
        (st.curData, st.gPrev)).1 ∧
    updateMask F sigma p.cutOff cur =
      thresholdMask
        (p.cutOff * vectorMax (F.blur sigma (complexNormElementwise F.sqrt cur)))
        (F.blur sigma (complexNormElementwise F.sqrt cur)) ∧
    cudaUpdateMask F p (k + 1) sigma cur = updateMask F sigma p.cutOff cur ∧
    cudaUpdateMask F p 0 sigma cur =
      thresholdMask
        (p.cutOffAutoCorel *
          vectorMax (F.blur sigma (complexNormElementwise F.sqrt cur)))
        (F.blur sigma (complexNormElementwise F.sqrt cur)) ∧
    (∀ v ∈ (outerCycle F p intensity st).isMasked, v = 0 ∨ v = 1) ∧
    (∀ v ∈ cudaUpdateMask F p k sigma cur, v = 0 ∨ v = 1) := by
  refine ⟨rfl, rfl, rfl, by simp [cudaUpdateMask, updateMask],
    by simp [cudaUpdateMask], ?_, ?_⟩
  · show ∀ v ∈ updateMask F st.sigma p.cutOff st.curData, v = 0 ∨ v = 1
    unfold updateMask
    exact thresholdMask_mem _ _
  · unfold cudaUpdateMask
    exact thresholdMask_mem _ _

/-- C3: one HIO constraint application updates the previous-iterate buffer
pixelwise: where the mask is 1 or the real part of gPrime is negative, the
new gPrevious equals the old gPrevious minus beta times gPrime
(componentwise); everywhere else it equals gPrime. -/
theorem hio_constraint_contract (beta : ℚ) (gPrev gPrime : List (ℚ × ℚ))
    (mask : List ℚ) (i : ℕ)
    (hmask : ∀ m ∈ mask, m = 0 ∨ m = 1)
    (h1 : gPrev.length = mask.length) (h2 : gPrime.length = mask.length)
    (hi : i < mask.length) :
    (applyHioDomainConstraints beta gPrev gPrime mask)[i]? =
      some (if mask[i] = 1 ∨ (gPrime[i]).1 < 0 then
              ((gPrev[i]).1 - beta * (gPrime[i]).1,
               (gPrev[i]).2 - beta * (gPrime[i]).2)
            else gPrime[i]) := by
  clear hmask
  have hl : (applyHioDomainConstraints beta gPrev gPrime mask).length =
      mask.length := by
    simp [applyHioDomainConstraints, h1, h2]
  rw [List.getElem?_eq_getElem (by rw [hl]; exact hi)]
  congr 1
  unfold applyHioDomainConstraints applyHioDomainConstraintsElem
  simp [List.getElem_map, List.getElem_zip]

/-- Witness for hio_constraint_contract: a single negative-real pixel with
mask entry 0 takes the feedback branch. -/
theorem hio_constraint_contract_witness :
    (∀ m ∈ ([0] : List ℚ), m = 0 ∨ m = 1) ∧
    ([((1 : ℚ), (2 : ℚ))].length = ([0] : List ℚ).length) ∧
    ([((-3 : ℚ), (4 : ℚ))].length = ([0] : List ℚ).length) ∧
    0 < ([0] : List ℚ).length ∧
    (applyHioDomainConstraints (1 / 2) [((1 : ℚ), (2 : ℚ))]
        [((-3 : ℚ), (4 : ℚ))] [0])[0]? =
      some (if ([0] : List ℚ)[0] = 1 ∨ ([((-3 : ℚ), (4 : ℚ))][0]).1 < 0 then
              (([((1 : ℚ), (2 : ℚ))][0]).1 -
                 (1 / 2) * ([((-3 : ℚ), (4 : ℚ))][0]).1,
               ([((1 : ℚ), (2 : ℚ))][0]).2 -
                 (1 / 2) * ([((-3 : ℚ), (4 : ℚ))][0]).2)
            else [((-3 : ℚ), (4 : ℚ))][0]) :=
  ⟨by simp, rfl, rfl, by norm_num,
   hio_constraint_contract (1 / 2) _ _ _ 0 (by simp) rfl rfl (by norm_num)⟩

/-- Sum of a list after dividing every entry by a constant. -/
lemma sum_map_div (l : List ℚ) (c : ℚ) :
    (l.map (fun w => w / c)).sum = l.sum / c := by
  induction l with
  | nil => simp
  | cons a t ih => simp [ih, add_div]

/-- Every unnormalized Gaussian weight is positive when sigma and
sqrt(2*pi) are positive and exp is positive everywhere. -/
lemma gaussRaw_pos (sqrt2pi : ℚ) (exp : ℚ → ℚ) (sigma : ℚ)
    (hs : 0 < sigma) (hsp : 0 < sqrt2pi) (hexp : ∀ x, 0 < exp x) :
    ∀ x ∈ gaussRaw sqrt2pi exp sigma, 0 < x := by
  intro x hx
  simp only [gaussRaw, List.mem_map, List.mem_range] at hx
  obtain ⟨j, _, rfl⟩ := hx
  have ha : 0 < gaussA sqrt2pi sigma := by
    unfold gaussA
    positivity
  exact mul_pos ha (hexp _)

/-- Entry j of the unnormalized weight list. -/
lemma gaussRaw_getElem (sqrt2pi : ℚ) (exp : ℚ → ℚ) (sigma : ℚ) (j : ℕ)
    (hj : j < 2 * (nNeighbors sigma).toNat + 1) :
    (gaussRaw sqrt2pi exp sigma)[j]? =
      some (gaussA sqrt2pi sigma *
        exp ((((j : ℚ) - ((nNeighbors sigma).toNat : ℚ)) *
              ((j : ℚ) - ((nNeighbors sigma).toNat : ℚ))) * gaussB sigma)) := by
  unfold gaussRaw
  rw [List.getElem?_map, List.getElem?_range]
  · rfl
  · exact hj

/-- Entry j of the normalized kernel. -/
lemma calcGaussianKernelWeights_getElem (sqrt2pi : ℚ) (exp : ℚ → ℚ)
    (sigma : ℚ) (j : ℕ) (hj : j < 2 * (nNeighbors sigma).toNat + 1) :
    (calcGaussianKernelWeights sqrt2pi exp sigma)[j]? =
      some ((gaussA sqrt2pi sigma *
        exp ((((j : ℚ) - ((nNeighbors sigma).toNat : ℚ)) *
              ((j : ℚ) - ((nNeighbors sigma).toNat : ℚ))) * gaussB sigma)) /
        (gaussRaw sqrt2pi exp sigma).sum) := by
  unfold calcGaussianKernelWeights
  rw [List.getElem?_map, gaussRaw_getElem sqrt2pi exp sigma j hj]
  rfl

/-- C6: for every sigma > 0 the built kernel has odd length 2n+1 with
n = ceil(2.884402748387961466*sigma - 0.5), the normalized weights sum to
1 exactly (hence within 1e-6), and the kernel is exactly symmetric:
entry n+i equals entry n-i for every i in [0, n]. -/
theorem gaussian_kernel_odd_normalized_symmetric (sqrt2pi : ℚ)
    (exp : ℚ → ℚ) (sigma : ℚ)
    (hs : 0 < sigma) (hsp : 0 < sqrt2pi) (hexp : ∀ x, 0 < exp x) :
    nNeighbors sigma = ⌈(2884402748387961466 : ℚ) / 10 ^ 18 * sigma - 1 / 2⌉ ∧
    (calcGaussianKernelWeights sqrt2pi exp sigma).length =
      2 * (nNeighbors sigma).toNat + 1 ∧
    |(calcGaussianKernelWeights sqrt2pi exp sigma).sum - 1| ≤ 1 / 1000000 ∧
    ∀ i : ℕ, i ≤ (nNeighbors sigma).toNat →
      (calcGaussianKernelWeights sqrt2pi exp sigma)[(nNeighbors sigma).toNat + i]? =
        (calcGaussianKernelWeights sqrt2pi exp sigma)[(nNeighbors sigma).toNat - i]? := by
  have hner : gaussRaw sqrt2pi exp sigma ≠ [] := by
    unfold gaussRaw
    intro hcon
    have := congrArg List.length hcon
    simp at this
  have hspos : 0 < (gaussRaw sqrt2pi exp sigma).sum :=
    List.sum_pos _ (gaussRaw_pos sqrt2pi exp sigma hs hsp hexp) hner
  refine ⟨rfl, ?_, ?_, ?_⟩
  · simp only [calcGaussianKernelWeights, gaussRaw, List.length_map,
      List.length_range]
  · rw [calcGaussianKernelWeights, sum_map_div, div_self hspos.ne']
    norm_num
  · intro i hi
    have h1 : (nNeighbors sigma).toNat + i <
        2 * (nNeighbors sigma).toNat + 1 := by omega
    have h2 : (nNeighbors sigma).toNat - i <
        2 * (nNeighbors sigma).toNat + 1 := by omega
    rw [calcGaussianKernelWeights_getElem sqrt2pi exp sigma _ h1,
      calcGaussianKernelWeights_getElem sqrt2pi exp sigma _ h2]
    have harg :
        ((((nNeighbors sigma).toNat + i : ℕ) : ℚ) -
            ((nNeighbors sigma).toNat : ℚ)) *
          ((((nNeighbors sigma).toNat + i : ℕ) : ℚ) -
            ((nNeighbors sigma).toNat : ℚ)) =
        ((((nNeighbors sigma).toNat - i : ℕ) : ℚ) -
            ((nNeighbors sigma).toNat : ℚ)) *
          ((((nNeighbors sigma).toNat - i : ℕ) : ℚ) -
            ((nNeighbors sigma).toNat : ℚ)) := by
      push_cast [Nat.cast_sub hi]
      ring
    rw [harg]

/-- Witness for gaussian_kernel_odd_normalized_symmetric at sigma = 3 with
a constant positive stand-in for exp. -/
theorem gaussian_kernel_odd_normalized_symmetric_witness :
    (0 : ℚ) < 3 ∧ (0 : ℚ) < 5 / 2 ∧ (∀ x : ℚ, 0 < (fun _ : ℚ => (1 : ℚ)) x) ∧
    (nNeighbors 3 = ⌈(2884402748387961466 : ℚ) / 10 ^ 18 * 3 - 1 / 2⌉ ∧
     (calcGaussianKernelWeights (5 / 2) (fun _ : ℚ => 1) 3).length =
       2 * (nNeighbors 3).toNat + 1 ∧
     |(calcGaussianKernelWeights (5 / 2) (fun _ : ℚ => 1) 3).sum - 1| ≤
       1 / 1000000 ∧
     ∀ i : ℕ, i ≤ (nNeighbors 3).toNat →
       (calcGaussianKernelWeights (5 / 2) (fun _ : ℚ => 1) 3)[(nNeighbors 3).toNat + i]? =
         (calcGaussianKernelWeights (5 / 2) (fun _ : ℚ => 1) 3)[(nNeighbors 3).toNat - i]?) :=
  ⟨by norm_num, by norm_num, fun x => one_pos,
   gaussian_kernel_odd_normalized_symmetric (5 / 2) (fun _ : ℚ => 1) 3
     (by norm_num) (by norm_num) (fun x => one_pos)⟩

/-- Closed form of the masked-error fold: running total and running count
over a zipped data/mask list. -/
lemma hio_error_foldl (sqrt : ℚ → ℚ) (l : List ((ℚ × ℚ) × ℚ)) (acc : ℚ × ℚ) :
    l.foldl
      (fun acc p =>
        if p.2 = 1 then (acc.1 + sqrt (normSq p.1), acc.2 + 1) else acc)
      acc =
    (acc.1 + ((l.filter (fun p => p.2 = 1)).map
        (fun p => sqrt (normSq p.1))).sum,
     acc.2 + ((l.filter (fun p => p.2 = 1)).length : ℚ)) := by
  induction l generalizing acc with
  | nil => simp
  | cons a t ih =>
    by_cases h : a.2 = 1
    · simp only [List.foldl_cons, if_pos h, ih, List.filter_cons, h,
        decide_True, if_true, List.map_cons, List.sum_cons, List.length_cons,
        Prod.mk.injEq]
      constructor
      · ring
      · push_cast
        ring
    · simp only [List.foldl_cons, if_neg h, ih, List.filter_cons, h,
        decide_False, if_false]
      simp [h]

/-- C7: the masked complex-norm reduction returns the sum of the complex
moduli over the pixels whose mask entry is 1 together with the count of
those pixels; in particular, if every masked pixel holds the constant
complex value (3, 4), whose modulus is 5, the total error equals exactly
5 times the masked-pixel count, regardless of the unmasked values. -/
theorem masked_complex_norm_error (sqrt : ℚ → ℚ) (data : List (ℚ × ℚ))
    (mask : List ℚ)
    (hmask : ∀ m ∈ mask, m = 0 ∨ m = 1)
    (hconst : ∀ p ∈ data.zip mask, p.2 = 1 → p.1 = ((3 : ℚ), (4 : ℚ)))
    (h5 : sqrt 25 = 5) :
    (calculateHioError sqrt data mask false).1 =
      (((data.zip mask).filter (fun p => p.2 = 1)).map
        (fun p => sqrt (normSq p.1))).sum ∧
    (calculateHioError sqrt data mask false).2 =
      (((data.zip mask).filter (fun p => p.2 = 1)).length : ℚ) ∧
    (calculateHioError sqrt data mask false).1 =
      5 * (calculateHioError sqrt data mask false).2 := by
  clear hmask
  have heq : calculateHioError sqrt data mask false =
      (data.zip mask).foldl
        (fun acc p =>
          if p.2 = 1 then (acc.1 + sqrt (normSq p.1), acc.2 + 1) else acc)
        (0, 0) := rfl
  rw [heq, hio_error_foldl]
  refine ⟨by simp, by simp, ?_⟩
  have hall : ∀ x ∈ ((data.zip mask).filter (fun p => p.2 = 1)).map
      (fun p => sqrt (normSq p.1)), x = 5 := by
    intro x hx
    simp only [List.mem_map, List.mem_filter, decide_eq_true_eq] at hx
    obtain ⟨p, ⟨hp, hp2⟩, rfl⟩ := hx
    rw [hconst p hp hp2]
    show sqrt (3 * 3 + 4 * 4) = 5
    norm_num [h5]
  have hsum := List.sum_eq_card_nsmul _ (5 : ℚ) hall
  simp only [List.length_map] at hsum
  simp [hsum, nsmul_eq_mul, mul_comm]

/-- Witness for masked_complex_norm_error: one masked (3,4) pixel and one
unmasked arbitrary pixel. -/
theorem masked_complex_norm_error_witness :
    (∀ m ∈ ([1, 0] : List ℚ), m = 0 ∨ m = 1) ∧
    (∀ p ∈ ([((3 : ℚ), (4 : ℚ)), ((9 : ℚ), (9 : ℚ))].zip ([1, 0] : List ℚ)),
      p.2 = 1 → p.1 = ((3 : ℚ), (4 : ℚ))) ∧
    sqrtTable 25 = 5 ∧
    ((calculateHioError sqrtTable [((3 : ℚ), (4 : ℚ)), ((9 : ℚ), (9 : ℚ))]
        [1, 0] false).1 =
      ((([((3 : ℚ), (4 : ℚ)), ((9 : ℚ), (9 : ℚ))].zip
          ([1, 0] : List ℚ)).filter (fun p => p.2 = 1)).map
        (fun p => sqrtTable (normSq p.1))).sum ∧
     (calculateHioError sqrtTable [((3 : ℚ), (4 : ℚ)), ((9 : ℚ), (9 : ℚ))]
        [1, 0] false).2 =
      ((([((3 : ℚ), (4 : ℚ)), ((9 : ℚ), (9 : ℚ))].zip
          ([1, 0] : List ℚ)).filter (fun p => p.2 = 1)).length : ℚ) ∧
     (calculateHioError sqrtTable [((3 : ℚ), (4 : ℚ)), ((9 : ℚ), (9 : ℚ))]
        [1, 0] false).1 =
      5 * (calculateHioError sqrtTable [((3 : ℚ), (4 : ℚ)), ((9 : ℚ), (9 : ℚ))]
        [1, 0] false).2) :=
  ⟨by norm_num, by norm_num, by norm_num [sqrtTable],
   masked_complex_norm_error sqrtTable _ _ (by norm_num) (by norm_num)
     (by norm_num [sqrtTable])⟩

/-- Soundness of a square-root function at one point: it squares back to
the argument and is nonnegative (true of the real square root at every
nonnegative argument). -/
def goodSqrtAt (sqrt : ℚ → ℚ) (x : ℚ) : Prop :=
  sqrt x * sqrt x = x ∧ 0 ≤ sqrt x

instance goodSqrtAtDecidable (f : ℚ → ℚ) (x : ℚ) :
    Decidable (goodSqrtAt f x) :=
  inferInstanceAs (Decidable (_ ∧ _))

/-- Squared modulus of an explicit pair. -/
lemma normSq_pair (x y : ℚ) : normSq (x, y) = x * x + y * y := rfl

/-- Unfolding equation of the one-pixel modulus projection. -/
lemma applyComplexModulusElem_eq (sqrt : ℚ → ℚ) (z : ℚ × ℚ) (amp : ℚ) :
    applyComplexModulusElem sqrt z amp =
      if 0 < sqrt (normSq z) then
        (z.1 * (amp / sqrt (normSq z)), z.2 * (amp / sqrt (normSq z)))
      else (amp, 0) := rfl

/-- One-pixel idempotence of the modulus projection for a nonnegative
amplitude, a source pixel of positive computed modulus and a sound square
root at the two norms involved. -/
lemma applyComplexModulusElem_idem (sqrt : ℚ → ℚ) (z : ℚ × ℚ) (a : ℚ)
    (ha : 0 ≤ a) (hn : 0 < sqrt (normSq z))
    (h1 : goodSqrtAt sqrt (normSq z))
    (h2 : goodSqrtAt sqrt (normSq (applyComplexModulusElem sqrt z a))) :
    applyComplexModulusElem sqrt (applyComplexModulusElem sqrt z a) a =
      applyComplexModulusElem sqrt z a := by
  obtain ⟨h1a, _⟩ := h1
  have hz' : applyComplexModulusElem sqrt z a =
      (z.1 * (a / sqrt (normSq z)), z.2 * (a / sqrt (normSq z))) := by
    rw [applyComplexModulusElem_eq, if_pos hn]
  have hzz : z.1 * z.1 + z.2 * z.2 = sqrt (normSq z) * sqrt (normSq z) := by
    rw [h1a]
    rfl
  have hX : normSq (z.1 * (a / sqrt (normSq z)),
      z.2 * (a / sqrt (normSq z))) = a * a := by
    rw [normSq_pair]
    calc z.1 * (a / sqrt (normSq z)) * (z.1 * (a / sqrt (normSq z))) +
          z.2 * (a / sqrt (normSq z)) * (z.2 * (a / sqrt (normSq z)))
        = (z.1 * z.1 + z.2 * z.2) *
            ((a / sqrt (normSq z)) * (a / sqrt (normSq z))) := by ring
      _ = (sqrt (normSq z) * sqrt (normSq z)) *
            ((a / sqrt (normSq z)) * (a / sqrt (normSq z))) := by rw [hzz]
      _ = a * a := by field_simp
  rw [hz'] at h2
  rw [hX] at h2
  obtain ⟨h2a, h2b⟩ := h2
  have hsX : sqrt (a * a) = a := (mul_self_inj h2b ha).mp h2a
  rcases eq_or_lt_of_le ha with haz | hap
  · have hz0 : applyComplexModulusElem sqrt z a = ((0 : ℚ), (0 : ℚ)) := by
      rw [hz', ← haz]
      simp
    rw [hz0]
    rw [applyComplexModulusElem_eq]
    have h00 : normSq ((0 : ℚ), (0 : ℚ)) = a * a := by
      rw [← haz, normSq_pair]
      norm_num
    rw [h00, hsX, ← haz]
    simp
  · rw [hz']
    rw [applyComplexModulusElem_eq]
    rw [hX, hsX, if_pos hap, div_self hap.ne']
    simp

/-- Head unfolding of the buffer-level modulus projection. -/
lemma applyComplexModulus_cons (sqrt : ℚ → ℚ) (z : ℚ × ℚ) (a : ℚ)
    (t : List (ℚ × ℚ)) (m : List ℚ) :
    applyComplexModulus sqrt (z :: t) (a :: m) =
      applyComplexModulusElem sqrt z a :: applyComplexModulus sqrt t m := by
  unfold applyComplexModulus
  rw [List.zip_cons_cons]
  rfl

/-- C8 counterexample: with the amplitude target -1 at a pixel of modulus
1, one application yields (-1, 0) and a second application yields (1, 0),
so applying the modulus projection twice differs from applying it once:
the claim fails for amplitude arrays with negative entries. -/
theorem modulus_projection_negative_amplitude :
    applyComplexModulus sqrtTable
        (applyComplexModulus sqrtTable [((1 : ℚ), (0 : ℚ))] [(-1 : ℚ)])
        [(-1 : ℚ)] ≠
      applyComplexModulus sqrtTable [((1 : ℚ), (0 : ℚ))] [(-1 : ℚ)] := by
  norm_num [applyComplexModulus, applyComplexModulusElem, sqrtTable, normSq,
    List.zip_cons_cons]

/-- C8 amended: the modulus projection is idempotent on every input whose
pixels all have positive computed modulus, provided the amplitude targets
are nonnegative (as every amplitude derived from an intensity is) and the
square root is sound at the norms involved: applying the projection twice
with the same amplitude target equals applying it once, elementwise and
exactly. -/
theorem modulus_projection_idempotent (sqrt : ℚ → ℚ) (src : List (ℚ × ℚ))
    (amp : List ℚ)
    (H : ∀ p ∈ src.zip amp,
      0 ≤ p.2 ∧ 0 < sqrt (normSq p.1) ∧ goodSqrtAt sqrt (normSq p.1) ∧
        goodSqrtAt sqrt (normSq (applyComplexModulusElem sqrt p.1 p.2))) :
    applyComplexModulus sqrt (applyComplexModulus sqrt src amp) amp =
      applyComplexModulus sqrt src amp := by
  induction src generalizing amp with
  | nil => rfl
  | cons z t ih =>
    cases amp with
    | nil => rfl
    | cons a m =>
      have h0 := H (z, a)
        (by rw [List.zip_cons_cons]; exact List.mem_cons_self _ _)
      have Ht : ∀ p ∈ t.zip m,
          0 ≤ p.2 ∧ 0 < sqrt (normSq p.1) ∧ goodSqrtAt sqrt (normSq p.1) ∧
            goodSqrtAt sqrt (normSq (applyComplexModulusElem sqrt p.1 p.2)) :=
        fun p hp =>
          H p (by rw [List.zip_cons_cons]; exact List.mem_cons_of_mem _ hp)
      obtain ⟨ha, hn, h1, h2⟩ := h0
      rw [applyComplexModulus_cons, applyComplexModulus_cons, ih m Ht,
        applyComplexModulusElem_idem sqrt z a ha hn h1 h2]

/-- Witness for modulus_projection_idempotent at the (3,4) pixel with
amplitude 5. -/
theorem modulus_projection_idempotent_witness :
    (∀ p ∈ ([((3 : ℚ), (4 : ℚ))].zip ([5] : List ℚ)),
      0 ≤ p.2 ∧ 0 < sqrtTable (normSq p.1) ∧
        goodSqrtAt sqrtTable (normSq p.1) ∧
        goodSqrtAt sqrtTable
          (normSq (applyComplexModulusElem sqrtTable p.1 p.2))) ∧
    applyComplexModulus sqrtTable
        (applyComplexModulus sqrtTable [((3 : ℚ), (4 : ℚ))] [(5 : ℚ)])
        [(5 : ℚ)] =
      applyComplexModulus sqrtTable [((3 : ℚ), (4 : ℚ))] [(5 : ℚ)] :=
  ⟨by norm_num [goodSqrtAt, sqrtTable, normSq, applyComplexModulusElem],
   modulus_projection_idempotent sqrtTable _ _
     (by norm_num [goodSqrtAt, sqrtTable, normSq, applyComplexModulusElem])⟩

end Imresh
